import Mathlib

/-!
Verification of the tensor-utility module of component-vis
(src/component_vis/utils.py): unfolding of a dense tensor, CP and Tucker
reconstruction, singleton extraction, and the mode/axis aliasing wrapper.

Dense numpy arrays are modelled as a shape together with the row-major
(C-order) flat data buffer, exactly as numpy stores them; entries are
rationals.  np.einsum is modelled by a generic contraction parameterised
by per-operand label lists; the labels are the character codes the source
builds (97 + mode for the lower-case per-mode letters, 82 for the reserved
rank letter R, 65 + mode for the upper-case Tucker core letters).
-/

namespace ComponentVis

/-- Python-level errors raised by the module: TypeError from the
mode/axis aliasing decorator, ValueError from numpy and from the
26-mode limit check. -/
inductive PyError where
  | typeError (msg : String)
  | valueError (msg : String)
deriving DecidableEq

/-- A dense numpy array: its shape and its row-major flat data buffer. -/
structure NDArray where
  shape : List Nat
  data : List ℚ
deriving DecidableEq

instance : Inhabited NDArray := ⟨⟨[], []⟩⟩

instance exceptDecEq {ε α : Type} [DecidableEq ε] [DecidableEq α] :
    DecidableEq (Except ε α) := fun a b =>
  match a, b with
  | .error e, .error f =>
      if h : e = f then isTrue (by rw [h]) else isFalse fun hh => h (by injection hh)
  | .error _, .ok _ => isFalse fun hh => Except.noConfusion hh
  | .ok _, .error _ => isFalse fun hh => Except.noConfusion hh
  | .ok x, .ok y =>
      if h : x = y then isTrue (by rw [h]) else isFalse fun hh => h (by injection hh)

/-- Total number of entries described by the shape (numpy's a.size). -/
def NDArray.size (a : NDArray) : Nat := a.shape.prod

/-- Row-major flat position of a multi-index inside a given shape. -/
def flatIndex : List Nat → List Nat → Nat
  | _ :: ds, i :: is => i * ds.prod + flatIndex ds is
  | _, _ => 0

/-- Inverse of flatIndex: the multi-index of a row-major flat position. -/
def unflatten : List Nat → Nat → List Nat
  | [], _ => []
  | _ :: ds, k => k / ds.prod :: unflatten ds (k % ds.prod)

/-- A multi-index is in range for a shape. -/
def validIdx : List Nat → List Nat → Bool
  | [], [] => true
  | d :: ds, i :: is => decide (i < d) && validIdx ds is
  | _, _ => false

/-- Entry of a dense array at a multi-index (0 outside the buffer). -/
def NDArray.getEntry (a : NDArray) (idx : List Nat) : ℚ :=
  a.data.getD (flatIndex a.shape idx) 0

/-- Materialise an entry function as a dense array in row-major order. -/
def ofFun (shape : List Nat) (f : List Nat → ℚ) : NDArray :=
  ⟨shape, (List.range shape.prod).map fun k => f (unflatten shape k)⟩

/-- Concatenation of the images of a list-valued function. -/
def catMap {α β : Type} (f : α → List β) : List α → List β
  | [] => []
  | a :: l => f a ++ catMap f l

/-- First-match association-list lookup. -/
def alookup {α β : Type} [DecidableEq α] (x : α) : List (α × β) → Option β
  | [] => none
  | (k, v) :: l => if x = k then some v else alookup x l

/-- The list s, s+1, ..., s+n-1. -/
def rng : Nat → Nat → List Nat
  | _, 0 => []
  | s, n + 1 => s :: rng (s + 1) n

/-- Extent of an einsum label: the first axis size it is paired with
across the operands. -/
def labelExtent (ops : List (List Nat × NDArray)) (c : Nat) : Nat :=
  (alookup c (catMap (fun p => p.1.zip p.2.shape) ops)).getD 0

/-- The contracted labels: those occurring on operands but not in the
output, each kept once. -/
def sumLabels (ops : List (List Nat × NDArray)) (out : List Nat) : List Nat :=
  ((catMap Prod.fst ops).filter fun c => decide (c ∉ out)).dedup

/-- The index assigned to a label, given the output labels with their
index values and the contracted labels with their index values. -/
def asnOf (out ov sls sv : List Nat) (c : Nat) : Nat :=
  (alookup c ((out.zip ov) ++ (sls.zip sv))).getD 0

/-- One output entry of an einsum contraction: sum over all assignments
of the contracted labels of the product of the operand entries. -/
def einsumEntry (ops : List (List Nat × NDArray)) (out ov : List Nat) : ℚ :=
  ((List.range ((sumLabels ops out).map (labelExtent ops)).prod).map fun k =>
    (ops.map fun p =>
      p.2.getEntry (p.1.map (asnOf out ov (sumLabels ops out)
        (unflatten ((sumLabels ops out).map (labelExtent ops)) k)))).prod).sum

/-- Semantics of np.einsum for consistently-shaped operands.  The real
primitive additionally raises a ValueError when an operand's rank differs
from its subscript count or when two occurrences of a label have
different extents; this model is total, so no theorem may equate "any
error" of a caller with a condition — statements about error behaviour
must pin the specific error they concern. -/
def einsum (ops : List (List Nat × NDArray)) (out : List Nat) : NDArray :=
  ofFun (out.map (labelExtent ops)) (einsumEntry ops out)

/-- Code of the lower-case letter assigned to a mode: ord("a") + mode. -/
def modeLabel (mode : Nat) : Nat := 97 + mode

/-- Code of the reserved rank letter "R". -/
def rankLabel : Nat := 82

/-- Code of the upper-case Tucker core letter: ord("A") + mode. -/
def coreLabel (mode : Nat) : Nat := 65 + mode

/-- The per-mode loops of cp_to_tensor and tucker_to_tensor raise iff the
letter assigned to some mode falls outside the alphabet:
ord(idx) > ord("z"). -/
def modeRangeError (m : Nat) : Bool :=
  (List.range m).any fun mode => decide (122 < modeLabel mode)

/-- The weight handling of cp_to_tensor: an omitted weight vector becomes
np.ones(factors[0].shape[1]); a given one is flattened by reshape(-1).
For an empty factor list the source raises an IndexError at
cp_tensor[1][0], whereas headD substitutes the default array; no theorem
may rely on that collapsed error path. -/
def cp_weights (w : Option NDArray) (factors : List NDArray) : NDArray :=
  match w with
  | none => ⟨[(factors.headD default).shape.getD 1 0],
             List.replicate ((factors.headD default).shape.getD 1 0) 1⟩
  | some w0 => ⟨[w0.data.length], w0.data⟩

/-- The einsum operands contributed by the factor matrices of a CP
decomposition, one per mode from the given starting mode: each factor is
labelled with its mode letter and the rank letter (", {idx}R"). -/
def cpOps : Nat → List NDArray → List (List Nat × NDArray)
  | _, [] => []
  | mode, a :: fs => ([modeLabel mode, rankLabel], a) :: cpOps (mode + 1) fs

/-- cp_to_tensor on a (weights, factor matrices) pair of plain arrays:
einsum("R, aR, bR, ... -> ab...", weights, factors...). -/
def cp_to_tensor (cp : Option NDArray × List NDArray) : Except PyError NDArray :=
  if modeRangeError cp.2.length then
    Except.error (PyError.valueError "Cannot have more modes than letters in the alphabet.")
  else
    Except.ok (einsum (([rankLabel], cp_weights cp.1 cp.2) :: cpOps 0 cp.2)
      ((List.range cp.2.length).map modeLabel))

/-- The einsum operands contributed by the factor matrices of a Tucker
decomposition: each factor is labelled with its mode letter and its
upper-case core letter (", {idx}{rank_idx}"). -/
def tuckerOps : Nat → List NDArray → List (List Nat × NDArray)
  | _, [] => []
  | mode, a :: fs => ([modeLabel mode, coreLabel mode], a) :: tuckerOps (mode + 1) fs

/-- tucker_to_tensor on a (core, factor matrices) pair of plain arrays:
einsum("ABC..., aA, bB, ... -> abc...", core, factors...). -/
def tucker_to_tensor (tucker : NDArray × List NDArray) : Except PyError NDArray :=
  if modeRangeError tucker.2.length then
    Except.error (PyError.valueError "Cannot have more modes than letters in the alphabet.")
  else
    Except.ok (einsum (((List.range tucker.2.length).map coreLabel, tucker.1)
        :: tuckerOps 0 tucker.2)
      ((List.range tucker.2.length).map modeLabel))

/-- Insert an element at a position of a list (clamping past the end,
as Python's list.insert does). -/
def insIdx {α : Type} : Nat → α → List α → List α
  | 0, a, l => a :: l
  | _ + 1, a, [] => [a]
  | n + 1, a, x :: l => x :: insIdx n a l

/-- Delete the element at a position of a list. -/
def delIdx {α : Type} : Nat → List α → List α
  | _, [] => []
  | 0, _ :: l => l
  | n + 1, x :: l => x :: delIdx n l

/-- np.moveaxis: axis dst of the result is the source axis src; the other
axes keep their relative order.  The result is materialised in row-major
order (numpy returns a view; the subsequent reshape copies it, which is
equivalent). -/
def moveaxis (a : NDArray) (src dst : Nat) : NDArray :=
  ofFun (insIdx dst (a.shape.getD src 0) (delIdx src a.shape)) fun j =>
    a.getEntry (insIdx src (j.getD dst 0) (delIdx dst j))

/-- np.reshape to an explicit new shape: the flat buffer is unchanged,
and the number of entries must be preserved. -/
def reshape (a : NDArray) (ns : List Nat) : Except PyError NDArray :=
  if ns.prod = a.size then Except.ok ⟨ns, a.data⟩
  else Except.error (PyError.valueError "cannot reshape array")

/-- np.reshape(d0, -1): the second dimension is inferred as size / d0,
which numpy rejects when d0 is zero (the unknown dimension is then
ambiguous) or does not divide the size. -/
def reshapeTo2D (a : NDArray) (d0 : Nat) : Except PyError NDArray :=
  if d0 ≠ 0 ∧ d0 ∣ a.size then Except.ok ⟨[d0, a.size / d0], a.data⟩
  else Except.error (PyError.valueError "cannot reshape array")

/-- unfold_tensor body: np.moveaxis(dataset, mode, 0).reshape(dataset.shape[mode], -1). -/
def unfold_tensor (tensor : NDArray) (mode : Nat) : Except PyError NDArray :=
  reshapeTo2D (moveaxis tensor mode 0) (tensor.shape.getD mode 0)

/-- Calling unfold_tensor through the _alias_mode_axis decorator with the
mode and axis arguments optionally supplied.  The decorator raises a
TypeError when neither is supplied, raises when both are supplied (mode
has no default, so any supplied mode differs from the stored default
None), and otherwise forwards axis as mode when axis is supplied. -/
def unfold_tensor_call (tensor : NDArray) (mode axis : Option Nat) : Except PyError NDArray :=
  if mode = none ∧ axis = none then
    Except.error (PyError.typeError
      "unfold_tensor needs either mode or axis to be set to a value different than None.")
  else if mode ≠ none ∧ axis ≠ none then
    Except.error (PyError.typeError "Either mode or axis can be specified, not both.")
  else
    match axis with
    | some a0 => unfold_tensor tensor a0
    | none => unfold_tensor tensor (mode.getD 0)

/-- extract_singleton: np.asarray(x).reshape(-1).item().  Flattening keeps
the row-major buffer; item() returns the sole element of a size-1 array
and raises a ValueError otherwise. -/
def extract_singleton (x : NDArray) : Except PyError ℚ :=
  match x.data with
  | [v] => Except.ok v
  | _ => Except.error (PyError.valueError "can only convert an array of size 1 to a Python scalar")

/-- A pandas DataFrame factor matrix: values plus a row index carrying an
optional name.  Row labels are modelled as strings. -/
structure DataFrame where
  values : NDArray
  indexName : Option String
  indexValues : List String
deriving DecidableEq

/-- A factor matrix as accepted by cp_to_tensor: a plain numpy array or a
labelled dataframe. -/
inductive FactorMatrix where
  | plain (a : NDArray)
  | frame (df : DataFrame)
deriving DecidableEq

/-- The underlying dense values of a factor matrix (np.asarray). -/
def FactorMatrix.values : FactorMatrix → NDArray
  | .plain a => a
  | .frame df => df.values

/-- Whether the factor matrix carries row labels. -/
def FactorMatrix.isFrame : FactorMatrix → Bool
  | .plain _ => false
  | .frame _ => true

/-- The row-label sequence of a factor matrix (fm.index.values). -/
def FactorMatrix.rowLabels : FactorMatrix → List String
  | .plain _ => []
  | .frame df => df.indexValues

/-- Modelled from the spec: is_labelled_cp (defined in xarray_wrapper,
which is not under src/) decides whether a CP decomposition is labelled,
namely whether every factor matrix carries row labels. -/
def is_labelled_cp (cp : Option NDArray × List FactorMatrix) : Bool :=
  cp.2.all FactorMatrix.isFrame

/-- Axis name for a mode: the declared index name when present, otherwise
the default "Mode m". -/
def modeName (mode : Nat) (fm : FactorMatrix) : String :=
  match fm with
  | .frame df =>
      match df.indexName with
      | some s => s
      | none => "Mode " ++ toString mode
  | .plain _ => "Mode " ++ toString mode

/-- Python dict insertion: overwrite the value in place when the key
exists, otherwise append the binding. -/
def dictInsert (d : List (String × List String)) (k : String) (v : List String) :
    List (String × List String) :=
  if k ∈ d.map Prod.fst then d.map fun p => if p.1 = k then (k, v) else p
  else d ++ [(k, v)]

/-- The dims list and coords dict building loop of cp_to_tensor. -/
def labelLoop : Nat → List (String × List String) → List String → List FactorMatrix →
    List String × List (String × List String)
  | _, coords, dims, [] => (dims, coords)
  | mode, coords, dims, fm :: fms =>
      labelLoop (mode + 1) (dictInsert coords (modeName mode fm) fm.rowLabels)
        (dims ++ [modeName mode fm]) fms

/-- The axis names of the modes, in factor order. -/
def cpNames : Nat → List FactorMatrix → List String
  | _, [] => []
  | mode, fm :: fms => modeName mode fm :: cpNames (mode + 1) fms

/-- A labelled xarray DataArray, to the extent the module constructs one:
values, dimension names and the coordinate dict. -/
structure DataArray where
  values : NDArray
  dims : List String
  coords : List (String × List String)
deriving DecidableEq

/-- Result of CP reconstruction: a plain array or a labelled DataArray. -/
inductive CPResult where
  | plain (a : NDArray)
  | labelled (d : DataArray)
deriving DecidableEq

/-- cp_to_tensor on possibly labelled factor matrices: reconstruct from
the underlying values, then return a plain array unless every factor
matrix carries row labels, in which case wrap the result in a DataArray
with the loop-built dims and coords. -/
def cp_to_tensor_full (cp : Option NDArray × List FactorMatrix) : Except PyError CPResult :=
  match cp_to_tensor (cp.1, cp.2.map FactorMatrix.values) with
  | Except.error e => Except.error e
  | Except.ok t =>
      if is_labelled_cp cp then
        Except.ok (CPResult.labelled
          ⟨t, (labelLoop 0 [] [] cp.2).1, (labelLoop 0 [] [] cp.2).2⟩)
      else Except.ok (CPResult.plain t)

/-- The dimension names of a labelled reconstruction result ([] when the
call failed or returned a plain array). -/
def resultDims : Except PyError CPResult → List String
  | Except.ok (CPResult.labelled d) => d.dims
  | _ => []

/-- The coords dict of a labelled reconstruction result ([] when the call
failed or returned a plain array). -/
def resultCoords : Except PyError CPResult → List (String × List String)
  | Except.ok (CPResult.labelled d) => d.coords
  | _ => []

/-- tucker_to_tensor on possibly labelled factor matrices: the factors are
coerced to their dense values by einsum and the result is returned as a
plain array; no labelling is performed. -/
def tucker_to_tensor_full (tucker : NDArray × List FactorMatrix) : Except PyError CPResult :=
  Except.map CPResult.plain (tucker_to_tensor (tucker.1, tucker.2.map FactorMatrix.values))

/-! ### Basic properties of the index machinery -/

theorem validIdx_length {s l : List Nat} (h : validIdx s l = true) : l.length = s.length := by
  induction s generalizing l with
  | nil =>
      cases l with
      | nil => rfl
      | cons i is => simp [validIdx] at h
  | cons d ds ih =>
      cases l with
      | nil => simp [validIdx] at h
      | cons i is =>
          simp only [validIdx, Bool.and_eq_true, decide_eq_true_eq] at h
          simp [ih h.2]

theorem flatIndex_lt {s l : List Nat} (h : validIdx s l = true) : flatIndex s l < s.prod := by
  induction s generalizing l with
  | nil =>
      cases l with
      | nil => simp [flatIndex]
      | cons i is => simp [validIdx] at h
  | cons d ds ih =>
      cases l with
      | nil => simp [validIdx] at h
      | cons i is =>
          simp only [validIdx, Bool.and_eq_true, decide_eq_true_eq] at h
          have h2 := ih h.2
          simp only [flatIndex, List.prod_cons]
          calc i * ds.prod + flatIndex ds is < i * ds.prod + ds.prod := by omega
            _ = (i + 1) * ds.prod := by ring
            _ ≤ d * ds.prod := Nat.mul_le_mul_right _ h.1

theorem unflatten_flatIndex {s l : List Nat} (h : validIdx s l = true) :
    unflatten s (flatIndex s l) = l := by
  induction s generalizing l with
  | nil =>
      cases l with
      | nil => rfl
      | cons i is => simp [validIdx] at h
  | cons d ds ih =>
      cases l with
      | nil => simp [validIdx] at h
      | cons i is =>
          simp only [validIdx, Bool.and_eq_true, decide_eq_true_eq] at h
          have hlt := flatIndex_lt h.2
          have hP : 0 < ds.prod := Nat.lt_of_le_of_lt (Nat.zero_le _) hlt
          simp only [flatIndex, unflatten]
          rw [Nat.mul_comm i ds.prod, Nat.mul_add_div hP, Nat.div_eq_of_lt hlt,
            Nat.mul_add_mod, Nat.mod_eq_of_lt hlt]
          simp [ih h.2]

theorem flatIndex_unflatten {s : List Nat} {k : Nat} (h : k < s.prod) :
    flatIndex s (unflatten s k) = k := by
  induction s generalizing k with
  | nil =>
      simp only [List.prod_nil, Nat.lt_one_iff] at h
      subst h
      rfl
  | cons d ds ih =>
      simp only [List.prod_cons] at h
      have hP : 0 < ds.prod := by
        rcases Nat.eq_zero_or_pos ds.prod with h0 | h0
        · rw [h0, Nat.mul_zero] at h; omega
        · exact h0
      simp only [unflatten, flatIndex]
      rw [ih (Nat.mod_lt _ hP)]
      exact Nat.div_add_mod' k ds.prod

theorem validIdx_unflatten {s : List Nat} {k : Nat} (h : k < s.prod) :
    validIdx s (unflatten s k) = true := by
  induction s generalizing k with
  | nil => simp [unflatten, validIdx]
  | cons d ds ih =>
      simp only [List.prod_cons] at h
      have hP : 0 < ds.prod := by
        rcases Nat.eq_zero_or_pos ds.prod with h0 | h0
        · rw [h0, Nat.mul_zero] at h; omega
        · exact h0
      simp only [unflatten, validIdx, Bool.and_eq_true, decide_eq_true_eq]
      exact ⟨(Nat.div_lt_iff_lt_mul hP).mpr h, ih (Nat.mod_lt _ hP)⟩

theorem length_unflatten (s : List Nat) (k : Nat) : (unflatten s k).length = s.length := by
  induction s generalizing k with
  | nil => rfl
  | cons d ds ih => simp [unflatten, ih]

theorem unflatten_singleton (d k : Nat) : unflatten [d] k = [k] := by
  simp [unflatten]

theorem ofFun_getEntry {s idx : List Nat} (f : List Nat → ℚ) (h : validIdx s idx = true) :
    (ofFun s f).getEntry idx = f idx := by
  have hlt := flatIndex_lt h
  simp only [ofFun, NDArray.getEntry]
  rw [List.getD_eq_getElem _ _ (by simpa using hlt)]
  simp [unflatten_flatIndex h]

/-! ### Helper lemmas about rng, alookup, catMap and dedup -/

@[simp] theorem catMap_nil {α β : Type} (f : α → List β) : catMap f [] = [] := rfl

@[simp] theorem catMap_cons {α β : Type} (f : α → List β) (a : α) (l : List α) :
    catMap f (a :: l) = f a ++ catMap f l := rfl

theorem length_rng (s n : Nat) : (rng s n).length = n := by
  induction n generalizing s with
  | zero => rfl
  | succ n ih => simp [rng, ih]

theorem mem_rng {x s n : Nat} : x ∈ rng s n ↔ s ≤ x ∧ x < s + n := by
  induction n generalizing s with
  | zero => simp [rng]
  | succ n ih =>
      simp only [rng, List.mem_cons, ih]
      omega

theorem rng_getD {s n i : Nat} (h : i < n) : (rng s n).getD i 0 = s + i := by
  induction n generalizing s i with
  | zero => omega
  | succ n ih =>
      cases i with
      | zero => simp [rng]
      | succ i =>
          simp only [rng, List.getD_cons_succ]
          rw [@ih (s + 1) i (by omega)]
          omega

theorem nodup_rng (s n : Nat) : (rng s n).Nodup := by
  induction n generalizing s with
  | zero => simp [rng]
  | succ n ih =>
      simp only [rng, List.nodup_cons]
      exact ⟨fun hmem => by have := mem_rng.mp hmem; omega, ih (s + 1)⟩

theorem rng_map_eq (b n : Nat) : (List.range n).map (fun m => b + m) = rng b n := by
  induction n generalizing b with
  | zero => simp [rng]
  | succ n ih =>
      rw [List.range_succ_eq_map]
      simp only [List.map_cons, List.map_map, rng, Nat.add_zero]
      congr 1
      rw [← ih (b + 1)]
      refine List.map_congr_left fun m _ => ?_
      simp only [Function.comp_apply]
      omega

theorem alookup_rng_hit {n : Nat} : ∀ {s j : Nat} {vs : List Nat}, j < n → n ≤ vs.length →
    alookup (s + j) ((rng s n).zip vs) = some (vs.getD j 0) := by
  induction n with
  | zero => intro s j vs hj _; omega
  | succ n ih =>
      intro s j vs hj hlen
      cases vs with
      | nil => simp at hlen
      | cons v vs =>
          cases j with
          | zero => simp [rng, alookup]
          | succ j =>
              simp only [rng, List.zip_cons_cons, alookup, List.getD_cons_succ]
              rw [if_neg (by omega)]
              have h2 : s + (j + 1) = (s + 1) + j := by omega
              rw [h2]
              exact @ih (s + 1) j vs (by omega) (by simpa using hlen)

theorem alookup_rng_miss {n : Nat} : ∀ {s x : Nat} (vs : List Nat), x < s ∨ s + n ≤ x →
    alookup x ((rng s n).zip vs) = none := by
  induction n with
  | zero => intro s x vs _; simp [rng, alookup]
  | succ n ih =>
      intro s x vs h
      cases vs with
      | nil => simp [alookup]
      | cons v vs =>
          simp only [rng, List.zip_cons_cons, alookup]
          rw [if_neg (by omega)]
          exact ih vs (by omega)

theorem alookup_append_left {α β : Type} [DecidableEq α] {x : α} {l1 l2 : List (α × β)} {v : β}
    (h : alookup x l1 = some v) : alookup x (l1 ++ l2) = some v := by
  induction l1 with
  | nil => simp [alookup] at h
  | cons p l ih =>
      obtain ⟨k, w⟩ := p
      simp only [alookup, List.cons_append] at h ⊢
      by_cases hx : x = k
      · rw [if_pos hx] at h ⊢; exact h
      · rw [if_neg hx] at h ⊢; exact ih h

theorem alookup_append_right {α β : Type} [DecidableEq α] {x : α} {l1 l2 : List (α × β)}
    (h : alookup x l1 = none) : alookup x (l1 ++ l2) = alookup x l2 := by
  induction l1 with
  | nil => rfl
  | cons p l ih =>
      obtain ⟨k, w⟩ := p
      simp only [alookup, List.cons_append] at h ⊢
      by_cases hx : x = k
      · rw [if_pos hx] at h; exact absurd h (by simp)
      · rw [if_neg hx] at h ⊢; exact ih h

theorem dedup_replicate_succ {α : Type} [DecidableEq α] (n : Nat) (x : α) :
    (List.replicate (n + 1) x).dedup = [x] := by
  induction n with
  | zero =>
      rw [List.replicate_succ, List.replicate_zero, List.dedup_cons_of_not_mem (by simp)]
      rfl
  | succ n ih =>
      rw [List.replicate_succ, List.dedup_cons_of_mem (by simp)]
      exact ih

theorem dedup_append_of_subset {α : Type} [DecidableEq α] :
    ∀ {l1 l2 : List α}, l1 ⊆ l2 → (l1 ++ l2).dedup = l2.dedup := by
  intro l1
  induction l1 with
  | nil => intro l2 _; rfl
  | cons a l ih =>
      intro l2 hsub
      have ha : a ∈ l ++ l2 := List.mem_append_right l (hsub (List.mem_cons_self a l))
      rw [List.cons_append, List.dedup_cons_of_mem ha]
      exact ih fun x hx => hsub (List.mem_cons_of_mem a hx)

/-! ### Reduction of the CP einsum contraction -/

theorem einsum_shape (ops : List (List Nat × NDArray)) (out : List Nat) :
    (einsum ops out).shape = out.map (labelExtent ops) := rfl

theorem out_eq_rng (m : Nat) : (List.range m).map modeLabel = rng 97 m := rng_map_eq 97 m

theorem coreLabs_eq_rng (m : Nat) : (List.range m).map coreLabel = rng 65 m := rng_map_eq 65 m

theorem cp_to_tensor_ok (w : Option NDArray) (factors : List NDArray)
    (hM : factors.length ≤ 26) :
    cp_to_tensor (w, factors) = Except.ok
      (einsum (([rankLabel], cp_weights w factors) :: cpOps 0 factors)
        ((List.range factors.length).map modeLabel)) := by
  have hguard : ¬ (modeRangeError factors.length = true) := by
    simp only [modeRangeError, List.any_eq_true, List.mem_range, decide_eq_true_eq, modeLabel]
    rintro ⟨mo, hmo, hgt⟩
    omega
  rw [cp_to_tensor, if_neg hguard]

theorem tucker_to_tensor_ok (core : NDArray) (factors : List NDArray)
    (hM : factors.length ≤ 26) :
    tucker_to_tensor (core, factors) = Except.ok
      (einsum (((List.range factors.length).map coreLabel, core) :: tuckerOps 0 factors)
        ((List.range factors.length).map modeLabel)) := by
  have hguard : ¬ (modeRangeError factors.length = true) := by
    simp only [modeRangeError, List.any_eq_true, List.mem_range, decide_eq_true_eq, modeLabel]
    rintro ⟨mo, hmo, hgt⟩
    omega
  rw [tucker_to_tensor, if_neg hguard]

theorem cpOps_filter {M : Nat} : ∀ (F : List NDArray) (m : Nat), m + F.length ≤ M →
    (catMap Prod.fst (cpOps m F)).filter (fun c => decide (c ∉ rng 97 M)) =
      List.replicate F.length rankLabel := by
  intro F
  induction F with
  | nil => intro m _; rfl
  | cons A F ih =>
      intro m hm
      simp only [List.length_cons] at hm
      have h1 : (decide ((modeLabel m : Nat) ∉ rng 97 M)) = false :=
        decide_eq_false (by simp only [modeLabel, mem_rng, not_not]; omega)
      have h2 : (decide ((rankLabel : Nat) ∉ rng 97 M)) = true :=
        decide_eq_true (by simp only [rankLabel, mem_rng]; omega)
      simp only [cpOps, catMap_cons, List.filter_append, List.filter_cons, h1, h2,
        List.filter_nil, if_true, if_false, Bool.false_eq_true]
      rw [ih (m + 1) (by omega)]
      rfl

theorem cp_sumLabels (w : NDArray) (factors : List NDArray) :
    sumLabels (([rankLabel], w) :: cpOps 0 factors) (rng 97 factors.length) = [rankLabel] := by
  rw [sumLabels]
  simp only [catMap_cons, List.filter_append]
  have h82 : List.filter (fun c => decide (c ∉ rng 97 factors.length)) [rankLabel] =
      [rankLabel] := by
    have h2 : (decide ((rankLabel : Nat) ∉ rng 97 factors.length)) = true :=
      decide_eq_true (by simp only [rankLabel, mem_rng]; omega)
    simp only [List.filter_cons, List.filter_nil, h2, if_true]
  rw [h82, cpOps_filter factors 0 (by omega)]
  rw [List.singleton_append, ← List.replicate_succ]
  exact dedup_replicate_succ _ rankLabel

theorem cp_extent_rank (w : NDArray) (factors : List NDArray) {r : Nat} (hw : w.shape = [r]) :
    labelExtent (([rankLabel], w) :: cpOps 0 factors) rankLabel = r := by
  rw [labelExtent]
  simp only [catMap_cons]
  rw [hw]
  simp only [List.zip_cons_cons, List.zip_nil_right, List.cons_append, alookup, if_pos rfl]
  rfl

theorem cpOps_alookup_mode {r : Nat} : ∀ (F : List NDArray) (m j : Nat), j < F.length →
    (∀ A ∈ F, A.shape.length = 2 ∧ A.shape.getD 1 0 = r) →
    alookup (97 + (m + j)) (catMap (fun p => p.1.zip p.2.shape) (cpOps m F)) =
      some ((F.getD j default).shape.getD 0 0) := by
  intro F
  induction F with
  | nil => intro m j hj _; simp at hj
  | cons A F ih =>
      intro m j hj hsh
      obtain ⟨hlen2, hcol⟩ := hsh A (List.mem_cons_self A F)
      obtain ⟨n0, n1, hA⟩ := List.length_eq_two.mp hlen2
      simp only [cpOps, catMap_cons]
      rw [hA]
      have hzip : ([modeLabel m, rankLabel].zip [n0, n1]) =
          [(modeLabel m, n0), (rankLabel, n1)] := rfl
      rw [hzip]
      simp only [List.cons_append, List.nil_append, alookup, modeLabel, rankLabel]
      cases j with
      | zero =>
          rw [if_pos (by omega)]
          simp [hA]
      | succ j =>
          rw [if_neg (by omega), if_neg (by omega)]
          have h2 : 97 + (m + (j + 1)) = 97 + ((m + 1) + j) := by omega
          rw [h2]
          simp only [List.getD_cons_succ]
          exact ih (m + 1) j (by simpa using hj)
            (fun B hB => hsh B (List.mem_cons_of_mem A hB))

theorem cp_outShape (w : NDArray) (factors : List NDArray) {r : Nat}
    (hsh : ∀ A ∈ factors, A.shape.length = 2 ∧ A.shape.getD 1 0 = r) :
    (rng 97 factors.length).map (labelExtent (([rankLabel], w) :: cpOps 0 factors)) =
      factors.map fun A => A.shape.getD 0 0 := by
  apply List.ext_getElem
  · simp [length_rng]
  · intro i h1 h2
    have hi : i < factors.length := by simpa [length_rng] using h1
    simp only [List.getElem_map]
    rw [← List.getD_eq_getElem (rng 97 factors.length) 0 (by simpa [length_rng] using hi),
      rng_getD hi, labelExtent]
    simp only [catMap_cons]
    have hmiss : alookup (97 + i) ([rankLabel].zip w.shape) = none := by
      cases hws : w.shape with
      | nil => simp [alookup]
      | cons a l =>
          simp only [rankLabel, List.zip_cons_cons, List.zip_nil_left, alookup]
          rw [if_neg (by omega)]
    rw [alookup_append_right hmiss]
    have h0 : (97 + i : Nat) = 97 + (0 + i) := by omega
    rw [h0, cpOps_alookup_mode factors 0 i hi hsh]
    simp only [Option.getD_some]
    rw [List.getD_eq_getElem factors default hi]

theorem cp_asn_mode {M : Nat} {idx : List Nat} (hlen : M ≤ idx.length) {j : Nat} (hj : j < M)
    (sv : List Nat) :
    asnOf (rng 97 M) idx [rankLabel] sv (97 + j) = idx.getD j 0 := by
  rw [asnOf, alookup_append_left (alookup_rng_hit hj hlen)]
  rfl

theorem cp_asn_rank {M : Nat} (idx : List Nat) (k : Nat) :
    asnOf (rng 97 M) idx [rankLabel] [k] rankLabel = k := by
  rw [asnOf, alookup_append_right (alookup_rng_miss idx (Or.inl (by decide)))]
  simp [alookup, rankLabel]

theorem cpOps_map_entry (aF : Nat → Nat) (r : Nat) :
    ∀ (F : List NDArray) (js : List Nat) (m : Nat),
      F.length ≤ js.length →
      (∀ t, t < F.length → aF (97 + (m + t)) = js.getD t 0) →
      aF rankLabel = r →
      (cpOps m F).map (fun p => p.2.getEntry (p.1.map aF)) =
        (F.zip js).map fun p => p.1.getEntry [p.2, r] := by
  intro F
  induction F with
  | nil => intro js m _ _ _; rfl
  | cons A F ih =>
      intro js m hlen hmode hrank
      cases js with
      | nil => simp at hlen
      | cons j js =>
          simp only [cpOps, List.map_cons, List.zip_cons_cons, List.map_nil]
          congr 1
          · have h0 := hmode 0 (by simp)
            simp only [Nat.add_zero, List.getD_cons_zero] at h0
            simp only [List.map_cons, List.map_nil, modeLabel] at h0 ⊢
            rw [h0, hrank]
          · apply ih js (m + 1) (by simpa using hlen)
            · intro t ht
              have hm := hmode (t + 1) (by simp only [List.length_cons]; omega)
              have harg : 97 + (m + (t + 1)) = 97 + ((m + 1) + t) := by omega
              rw [harg] at hm
              simpa using hm
            · exact hrank

/-- Claim C1: cp_to_tensor on a weight vector of length R and factor
matrices of shapes (n_m, R), with 1 <= M <= 26 modes, yields a dense
tensor of shape (n_0, ..., n_(M-1)) whose entry at a valid multi-index
(i_0, ..., i_(M-1)) is the sum over r < R of w[r] times the product over
all modes m of A_m[i_m, r]. -/
theorem cp_to_tensor_spec (w : NDArray) (factors : List NDArray) (r : Nat) (idx : List Nat)
    (hw : w.data.length = r)
    (hsh : ∀ A ∈ factors, A.shape.length = 2 ∧ A.shape.getD 1 0 = r)
    (_hM1 : 1 ≤ factors.length) (hM : factors.length ≤ 26)
    (hidx : validIdx (factors.map fun A => A.shape.getD 0 0) idx = true) :
    ∃ t, cp_to_tensor (some w, factors) = Except.ok t ∧
      t.shape = (factors.map fun A => A.shape.getD 0 0) ∧
      t.getEntry idx = ((List.range r).map fun k =>
        w.data.getD k 0 * ((factors.zip idx).map fun p => p.1.getEntry [p.2, k]).prod).sum := by
  rw [cp_to_tensor_ok (some w) factors hM, out_eq_rng]
  have hWshape : (cp_weights (some w) factors).shape = [r] := by
    simp only [cp_weights]
    rw [hw]
  have hshape := cp_outShape (cp_weights (some w) factors) factors hsh
  refine ⟨_, rfl, ?_, ?_⟩
  · rw [einsum_shape]
    exact hshape
  · have hval : validIdx ((rng 97 factors.length).map
        (labelExtent (([rankLabel], cp_weights (some w) factors) :: cpOps 0 factors)))
        idx = true := by
      rw [hshape]; exact hidx
    have hilen : factors.length ≤ idx.length := by
      rw [validIdx_length hidx, List.length_map]
    rw [einsum, ofFun_getEntry _ hval, einsumEntry, cp_sumLabels]
    have hext : ([rankLabel].map
        (labelExtent (([rankLabel], cp_weights (some w) factors) :: cpOps 0 factors))) = [r] := by
      simp only [List.map_cons, List.map_nil]
      rw [cp_extent_rank _ factors hWshape]
    rw [hext, List.prod_singleton]
    simp only [unflatten_singleton]
    refine congrArg List.sum (List.map_congr_left fun k _ => ?_)
    simp only [List.map_cons]
    rw [List.prod_cons]
    congr 1
    · simp only [List.map_cons, List.map_nil]
      rw [cp_asn_rank idx k]
      simp [cp_weights, NDArray.getEntry, flatIndex, hw]
    · refine congrArg List.prod
        (cpOps_map_entry _ k factors idx 0 hilen ?_ (cp_asn_rank idx k))
      intro t ht
      have harg : (97 + (0 + t) : Nat) = 97 + t := by omega
      rw [harg]
      exact cp_asn_mode hilen ht [k]

theorem cp_to_tensor_spec_witness :
    ∃ t, cp_to_tensor (some ⟨[2], [2, 3]⟩,
        [(⟨[2, 2], [1, 0, 0, 1]⟩ : NDArray), ⟨[1, 2], [5, 7]⟩]) = Except.ok t ∧
      t.shape = ([(⟨[2, 2], [1, 0, 0, 1]⟩ : NDArray), ⟨[1, 2], [5, 7]⟩].map
        fun A => A.shape.getD 0 0) ∧
      t.getEntry [1, 0] = ((List.range 2).map fun k =>
        (⟨[2], [2, 3]⟩ : NDArray).data.getD k 0 *
          (([(⟨[2, 2], [1, 0, 0, 1]⟩ : NDArray), ⟨[1, 2], [5, 7]⟩].zip [1, 0]).map
            fun p => p.1.getEntry [p.2, k]).prod).sum :=
  cp_to_tensor_spec ⟨[2], [2, 3]⟩ [⟨[2, 2], [1, 0, 0, 1]⟩, ⟨[1, 2], [5, 7]⟩] 2 [1, 0]
    (by decide) (by decide) (by decide) (by decide) (by decide)

/-! ### Reduction of the Tucker einsum contraction -/

theorem tuckerOps_filter {M : Nat} : ∀ (F : List NDArray) (m : Nat), m + F.length ≤ M →
    M ≤ 26 →
    (catMap Prod.fst (tuckerOps m F)).filter (fun c => decide (c ∉ rng 97 M)) =
      rng (65 + m) F.length := by
  intro F
  induction F with
  | nil => intro m _ _; rfl
  | cons A F ih =>
      intro m hm hM
      simp only [List.length_cons] at hm
      have h1 : (decide ((modeLabel m : Nat) ∉ rng 97 M)) = false :=
        decide_eq_false (by simp only [modeLabel, mem_rng, not_not]; omega)
      have h2 : (decide ((coreLabel m : Nat) ∉ rng 97 M)) = true :=
        decide_eq_true (by simp only [coreLabel, mem_rng]; omega)
      simp only [tuckerOps, catMap_cons, List.filter_append, List.filter_cons, h1, h2,
        List.filter_nil, if_true, if_false, Bool.false_eq_true]
      rw [ih (m + 1) (by omega) hM]
      rfl

theorem tucker_sumLabels (core : NDArray) (factors : List NDArray)
    (hM : factors.length ≤ 26) :
    sumLabels ((rng 65 factors.length, core) :: tuckerOps 0 factors)
        (rng 97 factors.length) = rng 65 factors.length := by
  rw [sumLabels]
  simp only [catMap_cons, List.filter_append]
  have hcore : (rng 65 factors.length).filter
      (fun c => decide (c ∉ rng 97 factors.length)) = rng 65 factors.length := by
    apply List.filter_eq_self.mpr
    intro c hc
    have hmem := mem_rng.mp hc
    exact decide_eq_true (by simp only [mem_rng]; omega)
  rw [hcore, tuckerOps_filter factors 0 (by omega) hM]
  simp only [Nat.add_zero]
  exact (dedup_append_of_subset fun x hx => hx).trans
    (List.dedup_eq_self.mpr (nodup_rng 65 _))

theorem tuckerOps_alookup_mode : ∀ (F : List NDArray) (m j : Nat), j < F.length →
    (∀ A ∈ F, A.shape.length = 2) →
    alookup (97 + (m + j)) (catMap (fun p => p.1.zip p.2.shape) (tuckerOps m F)) =
      some ((F.getD j default).shape.getD 0 0) := by
  intro F
  induction F with
  | nil => intro m j hj _; simp at hj
  | cons A F ih =>
      intro m j hj hsh
      obtain ⟨n0, n1, hA⟩ := List.length_eq_two.mp (hsh A (List.mem_cons_self A F))
      simp only [tuckerOps, catMap_cons]
      rw [hA]
      have hzip : ([modeLabel m, coreLabel m].zip [n0, n1]) =
          [(modeLabel m, n0), (coreLabel m, n1)] := rfl
      rw [hzip]
      simp only [List.cons_append, List.nil_append, alookup, modeLabel, coreLabel]
      cases j with
      | zero =>
          rw [if_pos (by omega)]
          simp [hA]
      | succ j =>
          rw [if_neg (by omega), if_neg (by omega)]
          have h2 : 97 + (m + (j + 1)) = 97 + ((m + 1) + j) := by omega
          rw [h2]
          simp only [List.getD_cons_succ]
          exact ih (m + 1) j (by simpa using hj)
            (fun B hB => hsh B (List.mem_cons_of_mem A hB))

theorem tucker_extent_core (core : NDArray) (factors : List NDArray) {j : Nat}
    (hj : j < factors.length) (hMlen : factors.length ≤ core.shape.length) :
    labelExtent ((rng 65 factors.length, core) :: tuckerOps 0 factors) (65 + j) =
      core.shape.getD j 0 := by
  rw [labelExtent]
  simp only [catMap_cons]
  rw [alookup_append_left (alookup_rng_hit hj hMlen)]
  rfl

theorem tucker_outShape (core : NDArray) (factors : List NDArray)
    (hM : factors.length ≤ 26) (hlen2 : ∀ A ∈ factors, A.shape.length = 2) :
    (rng 97 factors.length).map
        (labelExtent ((rng 65 factors.length, core) :: tuckerOps 0 factors)) =
      factors.map fun A => A.shape.getD 0 0 := by
  apply List.ext_getElem
  · simp [length_rng]
  · intro i h1 h2
    have hi : i < factors.length := by simpa [length_rng] using h1
    simp only [List.getElem_map]
    rw [← List.getD_eq_getElem (rng 97 factors.length) 0 (by simpa [length_rng] using hi),
      rng_getD hi, labelExtent]
    simp only [catMap_cons]
    rw [alookup_append_right (alookup_rng_miss core.shape (Or.inr (by omega)))]
    have h0 : (97 + i : Nat) = 97 + (0 + i) := by omega
    rw [h0, tuckerOps_alookup_mode factors 0 i hi hlen2]
    simp only [Option.getD_some]
    rw [List.getD_eq_getElem factors default hi]

theorem asn_out_hit {M : Nat} {idx : List Nat} (hlen : M ≤ idx.length) {j : Nat} (hj : j < M)
    (sls sv : List Nat) :
    asnOf (rng 97 M) idx sls sv (97 + j) = idx.getD j 0 := by
  rw [asnOf, alookup_append_left (alookup_rng_hit hj hlen)]
  rfl

theorem tucker_asn_core {M : Nat} (idx : List Nat) {sv : List Nat} (hsv : M ≤ sv.length)
    {j : Nat} (hj : j < M) (hM : M ≤ 26) :
    asnOf (rng 97 M) idx (rng 65 M) sv (65 + j) = sv.getD j 0 := by
  rw [asnOf, alookup_append_right (alookup_rng_miss idx (Or.inl (by omega)))]
  rw [alookup_rng_hit hj hsv]
  rfl

theorem map_asn_core {M : Nat} (idx : List Nat) {sv : List Nat} (hsv : sv.length = M)
    (hM : M ≤ 26) :
    (rng 65 M).map (asnOf (rng 97 M) idx (rng 65 M) sv) = sv := by
  apply List.ext_getElem
  · simp [length_rng, hsv]
  · intro i h1 h2
    simp only [List.getElem_map]
    have hi : i < M := by simpa [length_rng] using h1
    rw [← List.getD_eq_getElem (rng 65 M) 0 (by simpa [length_rng] using hi),
      rng_getD hi, tucker_asn_core idx (le_of_eq hsv.symm) hi hM]
    rw [List.getD_eq_getElem sv 0 (by omega)]

theorem tuckerOps_map_entry (aF : Nat → Nat) :
    ∀ (F : List NDArray) (js ws : List Nat) (m : Nat),
      F.length ≤ js.length → F.length ≤ ws.length →
      (∀ t, t < F.length → aF (97 + (m + t)) = js.getD t 0) →
      (∀ t, t < F.length → aF (65 + (m + t)) = ws.getD t 0) →
      (tuckerOps m F).map (fun p => p.2.getEntry (p.1.map aF)) =
        (F.zip (js.zip ws)).map fun p => p.1.getEntry [p.2.1, p.2.2] := by
  intro F
  induction F with
  | nil => intro js ws m _ _ _ _; rfl
  | cons A F ih =>
      intro js ws m hjs hws hmode hcore
      cases js with
      | nil => simp at hjs
      | cons j js =>
          cases ws with
          | nil => simp at hws
          | cons v ws =>
              simp only [tuckerOps, List.map_cons, List.zip_cons_cons, List.map_nil]
              congr 1
              · have h0 := hmode 0 (by simp)
                have h1 := hcore 0 (by simp)
                simp only [Nat.add_zero, List.getD_cons_zero] at h0 h1
                simp only [List.map_cons, List.map_nil, modeLabel, coreLabel]
                rw [h0, h1]
              · apply ih js ws (m + 1) (by simpa using hjs) (by simpa using hws)
                · intro t ht
                  have hm2 := hmode (t + 1) (by simp only [List.length_cons]; omega)
                  have harg : 97 + (m + (t + 1)) = 97 + ((m + 1) + t) := by omega
                  rw [harg] at hm2
                  simpa using hm2
                · intro t ht
                  have hc2 := hcore (t + 1) (by simp only [List.length_cons]; omega)
                  have harg : 65 + (m + (t + 1)) = 65 + ((m + 1) + t) := by omega
                  rw [harg] at hc2
                  simpa using hc2

theorem tucker_to_tensor_entry (core : NDArray) (factors : List NDArray) (idx : List Nat)
    (hcols : factors.map (fun A => A.shape.getD 1 0) = core.shape)
    (hlen2 : ∀ A ∈ factors, A.shape.length = 2)
    (hM : factors.length ≤ 26)
    (hidx : validIdx (factors.map fun A => A.shape.getD 0 0) idx = true) :
    ∃ t, tucker_to_tensor (core, factors) = Except.ok t ∧
      t.shape = (factors.map fun A => A.shape.getD 0 0) ∧
      t.getEntry idx = ((List.range core.shape.prod).map fun k =>
        core.getEntry (unflatten core.shape k) *
          ((factors.zip (idx.zip (unflatten core.shape k))).map
            fun p => p.1.getEntry [p.2.1, p.2.2]).prod).sum := by
  rw [tucker_to_tensor_ok core factors hM, out_eq_rng, coreLabs_eq_rng]
  have hMeq : core.shape.length = factors.length := by
    rw [← hcols, List.length_map]
  have hshape := tucker_outShape core factors hM hlen2
  refine ⟨_, rfl, ?_, ?_⟩
  · rw [einsum_shape]
    exact hshape
  · have hval : validIdx ((rng 97 factors.length).map
        (labelExtent ((rng 65 factors.length, core) :: tuckerOps 0 factors)))
        idx = true := by
      rw [hshape]; exact hidx
    have hilen : factors.length ≤ idx.length := by
      rw [validIdx_length hidx, List.length_map]
    rw [einsum, ofFun_getEntry _ hval, einsumEntry, tucker_sumLabels core factors hM]
    have hsS : (rng 65 factors.length).map
        (labelExtent ((rng 65 factors.length, core) :: tuckerOps 0 factors)) =
        core.shape := by
      apply List.ext_getElem
      · simp [length_rng, hMeq]
      · intro i h1 h2
        simp only [List.getElem_map]
        have hi : i < factors.length := by simpa [length_rng] using h1
        rw [← List.getD_eq_getElem (rng 65 factors.length) 0
          (by simpa [length_rng] using hi),
          rng_getD hi, tucker_extent_core core factors hi (le_of_eq hMeq.symm)]
        rw [List.getD_eq_getElem core.shape 0 h2]
    rw [hsS]
    refine congrArg List.sum (List.map_congr_left fun k hk => ?_)
    have hsvlen : (unflatten core.shape k).length = factors.length := by
      rw [length_unflatten]; exact hMeq
    simp only [List.map_cons]
    rw [List.prod_cons]
    congr 1
    · rw [map_asn_core idx hsvlen hM]
    · refine congrArg List.prod (tuckerOps_map_entry _ factors idx
        (unflatten core.shape k) 0 hilen (le_of_eq hsvlen.symm) ?_ ?_)
      · intro t ht
        have harg : (97 + (0 + t) : Nat) = 97 + t := by omega
        rw [harg]
        exact asn_out_hit hilen ht _ _
      · intro t ht
        have harg : (65 + (0 + t) : Nat) = 65 + t := by omega
        rw [harg]
        exact tucker_asn_core idx (le_of_eq hsvlen.symm) ht hM

/-- Claim C2: tucker_to_tensor on a core of shape (R_0, ..., R_(M-1)) and
factor matrices of shapes (n_m, R_m), 1 <= M <= 26, returns a plain
(unlabelled) dense array — CPResult.plain, even when factor matrices carry
row labels — of shape (n_0, ..., n_(M-1)) whose entry at a valid
multi-index is the sum over all core index combinations (enumerated in
row-major order as unflatten core.shape k for k < R_0 * ... * R_(M-1)) of
the core entry times the product over all modes m of A_m[i_m, r_m]. -/
theorem tucker_to_tensor_spec (core : NDArray) (fms : List FactorMatrix) (idx : List Nat)
    (hcols : (fms.map FactorMatrix.values).map (fun A => A.shape.getD 1 0) = core.shape)
    (hlen2 : ∀ A ∈ fms.map FactorMatrix.values, A.shape.length = 2)
    (_hM1 : 1 ≤ fms.length) (hM : fms.length ≤ 26)
    (hidx : validIdx ((fms.map FactorMatrix.values).map fun A => A.shape.getD 0 0)
      idx = true) :
    ∃ t, tucker_to_tensor_full (core, fms) = Except.ok (CPResult.plain t) ∧
      t.shape = ((fms.map FactorMatrix.values).map fun A => A.shape.getD 0 0) ∧
      t.getEntry idx = ((List.range core.shape.prod).map fun k =>
        core.getEntry (unflatten core.shape k) *
          (((fms.map FactorMatrix.values).zip (idx.zip (unflatten core.shape k))).map
            fun p => p.1.getEntry [p.2.1, p.2.2]).prod).sum := by
  obtain ⟨t, ht, hs, he⟩ := tucker_to_tensor_entry core (fms.map FactorMatrix.values) idx
    hcols hlen2 (by simpa using hM) hidx
  refine ⟨t, ?_, hs, he⟩
  rw [tucker_to_tensor_full]
  rw [show ((core, fms).1, (core, fms).2.map FactorMatrix.values) =
    (core, fms.map FactorMatrix.values) from rfl]
  rw [ht]
  rfl

theorem tucker_to_tensor_spec_witness :
    ∃ t, tucker_to_tensor_full (⟨[1, 2], [10, 20]⟩,
        [FactorMatrix.plain ⟨[1, 1], [3]⟩,
         FactorMatrix.frame ⟨⟨[2, 2], [1, 0, 0, 1]⟩, some "X", ["u", "v"]⟩]) =
      Except.ok (CPResult.plain t) ∧
      t.shape = (([FactorMatrix.plain ⟨[1, 1], [3]⟩,
         FactorMatrix.frame ⟨⟨[2, 2], [1, 0, 0, 1]⟩, some "X", ["u", "v"]⟩].map
           FactorMatrix.values).map fun A => A.shape.getD 0 0) ∧
      t.getEntry [0, 1] = ((List.range (⟨[1, 2], [10, 20]⟩ : NDArray).shape.prod).map
        fun k => (⟨[1, 2], [10, 20]⟩ : NDArray).getEntry
            (unflatten (⟨[1, 2], [10, 20]⟩ : NDArray).shape k) *
          ((([FactorMatrix.plain ⟨[1, 1], [3]⟩,
             FactorMatrix.frame ⟨⟨[2, 2], [1, 0, 0, 1]⟩, some "X", ["u", "v"]⟩].map
               FactorMatrix.values).zip
            ([0, 1].zip (unflatten (⟨[1, 2], [10, 20]⟩ : NDArray).shape k))).map
            fun p => p.1.getEntry [p.2.1, p.2.2]).prod).sum :=
  tucker_to_tensor_spec ⟨[1, 2], [10, 20]⟩
    [FactorMatrix.plain ⟨[1, 1], [3]⟩,
     FactorMatrix.frame ⟨⟨[2, 2], [1, 0, 0, 1]⟩, some "X", ["u", "v"]⟩]
    [0, 1] (by decide) (by decide) (by decide) (by decide) (by decide)

/-! ### Unfolding: moveaxis and reshape -/

theorem insIdx_zero {α : Type} (a : α) (l : List α) : insIdx 0 a l = a :: l := rfl

theorem delIdx_zero_cons {α : Type} (x : α) (l : List α) : delIdx 0 (x :: l) = l := rfl

theorem insIdx_delIdx : ∀ {l : List Nat} {m : Nat}, m < l.length →
    insIdx m (l.getD m 0) (delIdx m l) = l := by
  intro l
  induction l with
  | nil => intro m hm; simp at hm
  | cons x l ih =>
      intro m hm
      cases m with
      | zero => rfl
      | succ m =>
          simp only [delIdx, List.getD_cons_succ, insIdx]
          rw [ih (by simpa using hm)]

theorem validIdx_getD : ∀ {s j : List Nat}, validIdx s j = true →
    ∀ {i : Nat}, i < s.length → j.getD i 0 < s.getD i 0 := by
  intro s
  induction s with
  | nil => intro j h i hi; simp at hi
  | cons d ds ih =>
      intro j h i hi
      cases j with
      | nil => simp [validIdx] at h
      | cons x js =>
          simp only [validIdx, Bool.and_eq_true, decide_eq_true_eq] at h
          cases i with
          | zero => simpa using h.1
          | succ i =>
              simp only [List.getD_cons_succ]
              exact ih h.2 (by simpa using hi)

theorem validIdx_delIdx : ∀ {s j : List Nat} (m : Nat), validIdx s j = true →
    validIdx (delIdx m s) (delIdx m j) = true := by
  intro s
  induction s with
  | nil =>
      intro j m h
      cases j with
      | nil => simpa [delIdx] using h
      | cons x js => simp [validIdx] at h
  | cons d ds ih =>
      intro j m h
      cases j with
      | nil => simp [validIdx] at h
      | cons x js =>
          simp only [validIdx, Bool.and_eq_true, decide_eq_true_eq] at h
          cases m with
          | zero => simpa [delIdx] using h.2
          | succ m =>
              simp only [delIdx, validIdx, Bool.and_eq_true, decide_eq_true_eq]
              exact ⟨h.1, ih m h.2⟩

theorem idx2_lt {a b i j : Nat} (hi : i < a) (hj : j < b) : i * b + j < a * b :=
  calc i * b + j < i * b + b := by omega
    _ = (i + 1) * b := by ring
    _ ≤ a * b := Nat.mul_le_mul_right b (by omega)

theorem flatIndex_pair (a b i j : Nat) : flatIndex [a, b] [i, j] = i * b + j := by
  simp [flatIndex]

theorem ofFun_data_getD {s : List Nat} (f : List Nat → ℚ) {p : Nat} (hp : p < s.prod) :
    (ofFun s f).data.getD p 0 = f (unflatten s p) := by
  simp only [ofFun]
  rw [List.getD_eq_getElem _ _ (by simpa using hp)]
  simp

theorem unflatten_block {d : Nat} {ds : List Nat} {i j : Nat} (hj : j < ds.prod) :
    unflatten (d :: ds) (i * ds.prod + j) = i :: unflatten ds j := by
  have hP : 0 < ds.prod := Nat.lt_of_le_of_lt (Nat.zero_le _) hj
  simp only [unflatten]
  rw [Nat.mul_comm i ds.prod, Nat.mul_add_div hP, Nat.div_eq_of_lt hj, Nat.mul_add_mod,
    Nat.mod_eq_of_lt hj]
  simp

/-- Claim C3 counterexample: a valid axis of size zero makes the reshape
step fail (the inferred -1 dimension is ambiguous for a size-0 array), so
unfold_tensor returns no matrix at all, contradicting the claim that it
returns a matrix of shape (0, 1) for this input. -/
theorem unfold_tensor_zero_axis_cex :
    unfold_tensor ⟨[0], ([] : List ℚ)⟩ 0 =
      Except.error (PyError.valueError "cannot reshape array") := rfl

/-- Claim C3, amended: for a dense tensor T and a valid axis index m with
T.shape[m] nonzero, unfold_tensor returns a matrix whose first dimension
is T.shape[m], whose second dimension is the product of the remaining
axis sizes, and whose (i, j) entry is the entry of T at the multi-index
obtained by inserting i at position m into the row-major multi-index j of
the remaining axes (i.e. the ordering of moving axis m to the front and
flattening the rest in their original relative order).  The original
claim omitted the nonzero condition; with T.shape[m] = 0 the reshape step
fails instead of returning a matrix. -/
theorem unfold_tensor_spec (t : NDArray) (m : Nat)
    (_hm : m < t.shape.length) (h0 : t.shape.getD m 0 ≠ 0) :
    ∃ u, unfold_tensor t m = Except.ok u ∧
      u.shape = [t.shape.getD m 0, (delIdx m t.shape).prod] ∧
      ∀ i j, i < t.shape.getD m 0 → j < (delIdx m t.shape).prod →
        u.getEntry [i, j] = t.getEntry (insIdx m i (unflatten (delIdx m t.shape) j)) := by
  have hmsize : (moveaxis t m 0).size = t.shape.getD m 0 * (delIdx m t.shape).prod := rfl
  have hdvd : t.shape.getD m 0 ∣ (moveaxis t m 0).size := by
    rw [hmsize]; exact dvd_mul_right _ _
  have hdiv : (moveaxis t m 0).size / t.shape.getD m 0 = (delIdx m t.shape).prod := by
    rw [hmsize]
    exact Nat.mul_div_cancel_left _ (Nat.pos_of_ne_zero h0)
  rw [unfold_tensor, reshapeTo2D, if_pos ⟨h0, hdvd⟩]
  refine ⟨_, rfl, ?_, ?_⟩
  · show [t.shape.getD m 0, (moveaxis t m 0).size / t.shape.getD m 0] =
      [t.shape.getD m 0, (delIdx m t.shape).prod]
    rw [hdiv]
  · intro i j hi hj
    simp only [NDArray.getEntry]
    rw [hdiv, flatIndex_pair]
    rw [show moveaxis t m 0 = ofFun (t.shape.getD m 0 :: delIdx m t.shape)
      (fun jj => t.getEntry (insIdx m (jj.getD 0 0) (delIdx 0 jj))) from rfl]
    rw [ofFun_data_getD _ (by simp only [List.prod_cons]; exact idx2_lt hi hj)]
    rw [unflatten_block hj]
    simp only [List.getD_cons_zero, delIdx_zero_cons]
    rfl

theorem unfold_tensor_spec_witness :
    ∃ u, unfold_tensor ⟨[2, 3], [1, 2, 3, 4, 5, 6]⟩ 1 = Except.ok u ∧
      u.shape = [(⟨[2, 3], [1, 2, 3, 4, 5, 6]⟩ : NDArray).shape.getD 1 0,
        (delIdx 1 (⟨[2, 3], [1, 2, 3, 4, 5, 6]⟩ : NDArray).shape).prod] ∧
      ∀ i j, i < (⟨[2, 3], [1, 2, 3, 4, 5, 6]⟩ : NDArray).shape.getD 1 0 →
        j < (delIdx 1 (⟨[2, 3], [1, 2, 3, 4, 5, 6]⟩ : NDArray).shape).prod →
        u.getEntry [i, j] = (⟨[2, 3], [1, 2, 3, 4, 5, 6]⟩ : NDArray).getEntry
          (insIdx 1 i (unflatten (delIdx 1 (⟨[2, 3], [1, 2, 3, 4, 5, 6]⟩ : NDArray).shape) j)) :=
  unfold_tensor_spec ⟨[2, 3], [1, 2, 3, 4, 5, 6]⟩ 1 (by decide) (by decide)

theorem ndarray_ext {a b : NDArray} (h1 : a.shape = b.shape) (h2 : a.data = b.data) :
    a = b := by
  cases a
  cases b
  simp_all

theorem moveaxis_roundtrip (t : NDArray) (m : Nat) (hm : m < t.shape.length)
    (hwf : t.data.length = t.shape.prod) :
    moveaxis (moveaxis t m 0) 0 m = t := by
  have hstep : moveaxis (moveaxis t m 0) 0 m =
      ofFun t.shape
        (fun j => (moveaxis t m 0).getEntry (insIdx 0 (j.getD m 0) (delIdx m j))) := by
    rw [show moveaxis (moveaxis t m 0) 0 m =
      ofFun (insIdx m (t.shape.getD m 0) (delIdx m t.shape))
        (fun j => (moveaxis t m 0).getEntry (insIdx 0 (j.getD m 0) (delIdx m j))) from rfl]
    rw [insIdx_delIdx hm]
  rw [hstep]
  refine ndarray_ext rfl ?_
  apply List.ext_getElem
  · simpa [ofFun] using hwf.symm
  · intro k h1 h2
    have hk : k < t.shape.prod := by simpa [ofFun] using h1
    simp only [ofFun, List.getElem_map, List.getElem_range]
    have hj : validIdx t.shape (unflatten t.shape k) = true := validIdx_unflatten hk
    have hjlen : (unflatten t.shape k).length = t.shape.length := length_unflatten _ _
    rw [show moveaxis t m 0 = ofFun (t.shape.getD m 0 :: delIdx m t.shape)
      (fun jj => t.getEntry (insIdx m (jj.getD 0 0) (delIdx 0 jj))) from rfl]
    rw [insIdx_zero]
    have hvalid : validIdx (t.shape.getD m 0 :: delIdx m t.shape)
        ((unflatten t.shape k).getD m 0 :: delIdx m (unflatten t.shape k)) = true := by
      simp only [validIdx, Bool.and_eq_true, decide_eq_true_eq]
      exact ⟨validIdx_getD hj hm, validIdx_delIdx m hj⟩
    rw [ofFun_getEntry _ hvalid]
    simp only [List.getD_cons_zero, delIdx_zero_cons]
    rw [show insIdx m ((unflatten t.shape k).getD m 0) (delIdx m (unflatten t.shape k)) =
      unflatten t.shape k from insIdx_delIdx (by rw [hjlen]; exact hm)]
    simp only [NDArray.getEntry]
    rw [flatIndex_unflatten hk]
    rw [List.getD_eq_getElem _ _ (by rw [hwf]; exact hk)]

/-- Claim C4: whenever unfold_tensor succeeds on a dense tensor T at a
valid axis m, reshaping the matrix back to the axis-m-first shape and
moving axis 0 back to position m recovers T exactly. -/
theorem unfold_roundtrip_spec (t u : NDArray) (m : Nat)
    (hm : m < t.shape.length) (hwf : t.data.length = t.shape.prod)
    (hU : unfold_tensor t m = Except.ok u) :
    Except.map (fun v => moveaxis v 0 m)
      (reshape u (t.shape.getD m 0 :: delIdx m t.shape)) = Except.ok t := by
  rw [unfold_tensor, reshapeTo2D] at hU
  by_cases hc : t.shape.getD m 0 ≠ 0 ∧ t.shape.getD m 0 ∣ (moveaxis t m 0).size
  · rw [if_pos hc] at hU
    injection hU with h
    subst h
    have hmsize : (moveaxis t m 0).size = t.shape.getD m 0 * (delIdx m t.shape).prod := rfl
    have hdiv : (moveaxis t m 0).size / t.shape.getD m 0 = (delIdx m t.shape).prod := by
      rw [hmsize]
      exact Nat.mul_div_cancel_left _ (Nat.pos_of_ne_zero hc.1)
    have hcond : (t.shape.getD m 0 :: delIdx m t.shape).prod =
        (⟨[t.shape.getD m 0, (moveaxis t m 0).size / t.shape.getD m 0],
          (moveaxis t m 0).data⟩ : NDArray).size := by
      show t.shape.getD m 0 * (delIdx m t.shape).prod =
        t.shape.getD m 0 * ((moveaxis t m 0).size / t.shape.getD m 0 * 1)
      rw [hdiv, Nat.mul_one]
    rw [reshape, if_pos hcond]
    simp only [Except.map]
    rw [show (⟨t.shape.getD m 0 :: delIdx m t.shape, (moveaxis t m 0).data⟩ : NDArray) =
      moveaxis t m 0 from rfl]
    rw [moveaxis_roundtrip t m hm hwf]
  · rw [if_neg hc] at hU
    exact absurd hU (by simp)

theorem unfold_roundtrip_spec_witness :
    Except.map (fun v => moveaxis v 0 1)
      (reshape ⟨[3, 2], [1, 4, 2, 5, 3, 6]⟩
        ((⟨[2, 3], [1, 2, 3, 4, 5, 6]⟩ : NDArray).shape.getD 1 0 ::
          delIdx 1 (⟨[2, 3], [1, 2, 3, 4, 5, 6]⟩ : NDArray).shape)) =
      Except.ok ⟨[2, 3], [1, 2, 3, 4, 5, 6]⟩ :=
  unfold_roundtrip_spec ⟨[2, 3], [1, 2, 3, 4, 5, 6]⟩ ⟨[3, 2], [1, 4, 2, 5, 3, 6]⟩ 1
    (by decide) (by decide) rfl

/-! ### The labelled CP reconstruction path -/

theorem labelLoop_dims : ∀ (fms : List FactorMatrix) (m : Nat)
    (coords : List (String × List String)) (dims : List String),
    (labelLoop m coords dims fms).1 = dims ++ cpNames m fms := by
  intro fms
  induction fms with
  | nil => intro m coords dims; simp [labelLoop, cpNames]
  | cons fm fms ih =>
      intro m coords dims
      simp only [labelLoop, cpNames]
      rw [ih]
      simp [List.append_assoc]

theorem dictInsert_not_mem {d : List (String × List String)} {k : String} {v : List String}
    (h : k ∉ d.map Prod.fst) : dictInsert d k v = d ++ [(k, v)] := by
  rw [dictInsert, if_neg h]

theorem labelLoop_coords : ∀ (fms : List FactorMatrix) (m : Nat)
    (coords : List (String × List String)) (dims : List String),
    (coords.map Prod.fst ++ cpNames m fms).Nodup →
    (labelLoop m coords dims fms).2 =
      coords ++ (cpNames m fms).zip (fms.map FactorMatrix.rowLabels) := by
  intro fms
  induction fms with
  | nil => intro m coords dims _; simp [labelLoop, cpNames]
  | cons fm fms ih =>
      intro m coords dims hnd
      simp only [cpNames] at hnd
      have hnotmem : modeName m fm ∉ coords.map Prod.fst := fun hmem =>
        (List.disjoint_of_nodup_append hnd) hmem (List.mem_cons_self _ _)
      have hkeys : ((coords ++ [(modeName m fm, fm.rowLabels)]).map Prod.fst ++
          cpNames (m + 1) fms) = coords.map Prod.fst ++
          (modeName m fm :: cpNames (m + 1) fms) := by
        simp [List.map_append, List.append_assoc]
      have hnd2 : (((coords ++ [(modeName m fm, fm.rowLabels)]).map Prod.fst) ++
          cpNames (m + 1) fms).Nodup := by
        rw [hkeys]; exact hnd
      simp only [labelLoop, cpNames, List.map_cons, List.zip_cons_cons]
      rw [dictInsert_not_mem hnotmem, ih _ _ _ hnd2]
      simp [List.append_assoc]

theorem cp_to_tensor_full_eq (w : Option NDArray) (fms : List FactorMatrix) {t : NDArray}
    (h : cp_to_tensor (w, fms.map FactorMatrix.values) = Except.ok t) :
    cp_to_tensor_full (w, fms) =
      if is_labelled_cp (w, fms) then
        Except.ok (CPResult.labelled
          ⟨t, (labelLoop 0 [] [] fms).1, (labelLoop 0 [] [] fms).2⟩)
      else Except.ok (CPResult.plain t) := by
  unfold cp_to_tensor_full
  rw [show cp_to_tensor ((w, fms).1, (w, fms).2.map FactorMatrix.values) =
    Except.ok t from h]

/-- Claim C5, amended: when every factor matrix carries row labels and the
resolved axis names of the modes are pairwise distinct, cp_to_tensor
returns a labelled tensor whose mode-m axis name is the declared index
name when present and otherwise "Mode m" (cpNames), with the coords dict
pairing each axis name with that factor matrix's row-label sequence in
factor order; when some factor matrix lacks row labels the result is a
plain unlabelled array.  The original claim omitted the distinctness
condition: with clashing names the coords dict keeps only the last
factor's labels for that name. -/
theorem cp_to_tensor_labelled_spec (w : Option NDArray) (fms : List FactorMatrix)
    (hM : fms.length ≤ 26) :
    (is_labelled_cp (w, fms) = true → (cpNames 0 fms).Nodup →
      ∃ t, cp_to_tensor_full (w, fms) = Except.ok (CPResult.labelled
        ⟨t, cpNames 0 fms, (cpNames 0 fms).zip (fms.map FactorMatrix.rowLabels)⟩)) ∧
    (is_labelled_cp (w, fms) = false →
      ∃ t, cp_to_tensor_full (w, fms) = Except.ok (CPResult.plain t)) := by
  have hok := cp_to_tensor_ok w (fms.map FactorMatrix.values) (by simpa using hM)
  constructor
  · intro hlab hnd
    rw [cp_to_tensor_full_eq w fms hok, if_pos hlab]
    rw [labelLoop_dims, labelLoop_coords fms 0 [] [] (by simpa using hnd)]
    simp only [List.nil_append]
    exact ⟨_, rfl⟩
  · intro hnl
    rw [cp_to_tensor_full_eq w fms hok, if_neg (by simp [hnl])]
    exact ⟨_, rfl⟩

theorem cp_to_tensor_labelled_spec_witness :
    (∃ t, cp_to_tensor_full (none,
        [FactorMatrix.frame ⟨⟨[1, 1], [1]⟩, some "subjects", ["a"]⟩,
         FactorMatrix.frame ⟨⟨[1, 1], [2]⟩, none, ["b"]⟩]) =
      Except.ok (CPResult.labelled
        ⟨t, cpNames 0 [FactorMatrix.frame ⟨⟨[1, 1], [1]⟩, some "subjects", ["a"]⟩,
             FactorMatrix.frame ⟨⟨[1, 1], [2]⟩, none, ["b"]⟩],
          (cpNames 0 [FactorMatrix.frame ⟨⟨[1, 1], [1]⟩, some "subjects", ["a"]⟩,
             FactorMatrix.frame ⟨⟨[1, 1], [2]⟩, none, ["b"]⟩]).zip
            ([FactorMatrix.frame ⟨⟨[1, 1], [1]⟩, some "subjects", ["a"]⟩,
              FactorMatrix.frame ⟨⟨[1, 1], [2]⟩, none, ["b"]⟩].map
                FactorMatrix.rowLabels)⟩)) ∧
    (∃ t, cp_to_tensor_full (none, [FactorMatrix.plain ⟨[1, 1], [1]⟩]) =
      Except.ok (CPResult.plain t)) :=
  ⟨(cp_to_tensor_labelled_spec none
      [FactorMatrix.frame ⟨⟨[1, 1], [1]⟩, some "subjects", ["a"]⟩,
       FactorMatrix.frame ⟨⟨[1, 1], [2]⟩, none, ["b"]⟩] (by decide)).1 (by decide) (by decide),
   (cp_to_tensor_labelled_spec none [FactorMatrix.plain ⟨[1, 1], [1]⟩] (by decide)).2
     (by decide)⟩

/-- Claim C5 counterexample: two labelled factor matrices whose declared
index names coincide.  Every factor matrix carries row labels, yet the
returned coords dict holds only the second factor's labels ["b"] under the
shared name; the first factor's row labels ["a"] appear nowhere in the
result, which contradicts the claim that the axis coordinate values for
mode 0 are that factor matrix's row-label sequence. -/
theorem cp_labelled_name_clash_cex :
    resultDims (cp_to_tensor_full (none,
      [FactorMatrix.frame ⟨⟨[1, 1], [1]⟩, some "X", ["a"]⟩,
       FactorMatrix.frame ⟨⟨[1, 1], [2]⟩, some "X", ["b"]⟩])) = ["X", "X"] ∧
    resultCoords (cp_to_tensor_full (none,
      [FactorMatrix.frame ⟨⟨[1, 1], [1]⟩, some "X", ["a"]⟩,
       FactorMatrix.frame ⟨⟨[1, 1], [2]⟩, some "X", ["b"]⟩])) = [("X", ["b"])] :=
  ⟨rfl, rfl⟩

/-! ### Error behaviour of the reshape step -/

theorem unfold_tensor_no_typeError (t : NDArray) (m : Nat) (s : String) :
    unfold_tensor t m ≠ Except.error (PyError.typeError s) := by
  rw [unfold_tensor, reshapeTo2D]
  by_cases h : t.shape.getD m 0 ≠ 0 ∧ t.shape.getD m 0 ∣ (moveaxis t m 0).size
  · rw [if_pos h]; simp
  · rw [if_neg h]; simp

/-! ### Claim theorems: error handling and weight normalisation -/

/-- Claim C9: extract_singleton returns the sole element of a one-element
array-like unchanged as a scalar, and fails with an error whenever the
input holds zero elements or more than one element. -/
theorem extract_singleton_spec (x : NDArray) :
    (∀ v : ℚ, x.data = [v] → extract_singleton x = Except.ok v) ∧
    (x.data.length ≠ 1 → ∃ e, extract_singleton x = Except.error e) := by
  constructor
  · intro v hv
    simp [extract_singleton, hv]
  · intro hlen
    cases hx : x.data with
    | nil =>
        exact ⟨PyError.valueError "can only convert an array of size 1 to a Python scalar",
          by simp [extract_singleton, hx]⟩
    | cons a l =>
        cases l with
        | nil => rw [hx] at hlen; simp at hlen
        | cons b l2 =>
            exact ⟨PyError.valueError "can only convert an array of size 1 to a Python scalar",
              by simp [extract_singleton, hx]⟩

theorem extract_singleton_spec_witness :
    extract_singleton ⟨[1], [(5 : ℚ)]⟩ = Except.ok 5 ∧
    ∃ e, extract_singleton ⟨[2], [1, 2]⟩ = Except.error e :=
  ⟨(extract_singleton_spec ⟨[1], [(5 : ℚ)]⟩).1 5 rfl,
   (extract_singleton_spec ⟨[2], [1, 2]⟩).2 (by decide)⟩

/-- Claim C7: cp_to_tensor and tucker_to_tensor raise the range error of
the per-mode letter loop — the ValueError whose message reports that
there cannot be more modes than letters in the alphabet, here a neutral
stand-in for the source's f-string — exactly when the number of modes
exceeds 26 (in particular at M = 27); for at most 26 modes this range
error is never the result.  The statement pins that specific error: for
M <= 26 other failures of the real pipeline (einsum shape mismatches,
the empty-factor-list IndexError) are still possible and are not modelled
here, but none of them is the range error. -/
theorem mode_limit_spec (w : Option NDArray) (core : NDArray) (factors : List NDArray) :
    (cp_to_tensor (w, factors) = Except.error
        (PyError.valueError "Cannot have more modes than letters in the alphabet.") ↔
      26 < factors.length) ∧
    (tucker_to_tensor (core, factors) = Except.error
        (PyError.valueError "Cannot have more modes than letters in the alphabet.") ↔
      26 < factors.length) := by
  have hcond : modeRangeError factors.length = true ↔ 26 < factors.length := by
    simp only [modeRangeError, List.any_eq_true, List.mem_range, decide_eq_true_eq, modeLabel]
    constructor
    · rintro ⟨m, hm, hgt⟩; omega
    · intro h; exact ⟨26, by omega, by omega⟩
  constructor
  · constructor
    · intro he
      rw [cp_to_tensor] at he
      by_cases hB : modeRangeError (w, factors).2.length = true
      · exact hcond.mp (by simpa using hB)
      · rw [if_neg hB] at he; exact absurd he (by simp)
    · intro h
      rw [cp_to_tensor, if_pos (show modeRangeError (w, factors).2.length = true by
        simpa using hcond.mpr h)]
  · constructor
    · intro he
      rw [tucker_to_tensor] at he
      by_cases hB : modeRangeError (core, factors).2.length = true
      · exact hcond.mp (by simpa using hB)
      · rw [if_neg hB] at he; exact absurd he (by simp)
    · intro h
      rw [tucker_to_tensor, if_pos (show modeRangeError (core, factors).2.length = true by
        simpa using hcond.mpr h)]

/-- Claim C8, amended: the decorated unfold_tensor raises the configuration
TypeError exactly when neither mode nor axis is supplied, or when both are
supplied — regardless of whether the two supplied values agree (the
original claim exempted agreeing values, but the decorator rejects any
call that supplies both). -/
theorem unfold_alias_spec (t : NDArray) (m a : Option Nat) :
    (∃ s, unfold_tensor_call t m a = Except.error (PyError.typeError s)) ↔
      ((m = none ∧ a = none) ∨ (m ≠ none ∧ a ≠ none)) := by
  cases m <;> cases a <;>
    simp [unfold_tensor_call, unfold_tensor_no_typeError]

/-- Claim C8 counterexample: supplying mode and axis with the same value
still raises the configuration TypeError, contradicting the claim that
agreeing values are accepted. -/
theorem unfold_alias_both_equal_cex :
    unfold_tensor_call ⟨[2], [0, 0]⟩ (some 0) (some 0) =
      Except.error (PyError.typeError "Either mode or axis can be specified, not both.") := rfl

/-- Claim C10: a non-None weights argument of any shape is flattened in
row-major order before use, so it yields exactly the same result as the
flat length-R vector with the same buffer. -/
theorem cp_weights_flatten_spec (w : NDArray) (factors : List NDArray) (r : Nat)
    (_hwf : w.data.length = w.shape.prod) (_hr : w.shape.prod = r)
    (_hM1 : 1 ≤ factors.length) (_hM : factors.length ≤ 26) :
    cp_to_tensor (some w, factors) = cp_to_tensor (some ⟨[r], w.data⟩, factors) := rfl

theorem cp_weights_flatten_spec_witness :
    cp_to_tensor (some ⟨[2, 1], [5, 7]⟩, [(⟨[1, 2], [1, 2]⟩ : NDArray)]) =
      cp_to_tensor (some ⟨[2], ([5, 7] : List ℚ)⟩, [(⟨[1, 2], [1, 2]⟩ : NDArray)]) :=
  cp_weights_flatten_spec ⟨[2, 1], [5, 7]⟩ [⟨[1, 2], [1, 2]⟩] 2 (by decide) (by decide)
    (by decide) (by decide)

/-- Claim C6: omitting the weight vector gives exactly the same result as
passing the all-ones weight vector of length R, the shared rank of the
factor matrices. -/
theorem cp_default_weights_spec (factors : List NDArray) (r : Nat)
    (hr : (factors.headD default).shape.getD 1 0 = r)
    (_hM1 : 1 ≤ factors.length) (_hM : factors.length ≤ 26) :
    cp_to_tensor (none, factors) = cp_to_tensor (some ⟨[r], List.replicate r 1⟩, factors) := by
  rw [cp_to_tensor, cp_to_tensor]
  simp only [cp_weights, hr, List.length_replicate]

theorem cp_default_weights_spec_witness :
    cp_to_tensor (none, [(⟨[1, 1], [3]⟩ : NDArray)]) =
      cp_to_tensor (some ⟨[1], List.replicate 1 1⟩, [(⟨[1, 1], [3]⟩ : NDArray)]) :=
  cp_default_weights_spec [⟨[1, 1], [3]⟩] 1 (by decide) (by decide) (by decide)

end ComponentVis
